import Mathlib

/-!
Verification of the VoiceInsight conversation/session manager
(src/frontend/src/services/api.ts: ConversationManager, CloudWatchService).

Shallow embedding conventions:
- JS `Date` values are modelled by their instant, an `Int` of milliseconds
  since the epoch.  `Date.prototype.toISOString` is injective on instants and
  `new Date(isoString)` inverts it, so the ISO-8601 text stored in JSON is
  identified with the instant it denotes.
- JS numbers are modelled by `ℚ` (the concrete values appearing in the spec
  scenarios are exactly representable both as rationals and as binary64).
- JS objects used as string-keyed dictionaries (`emotionCounts`,
  `emotionBreakdown`, `insights`) are modelled as insertion-ordered
  association lists, matching the enumeration order of `Object.entries` /
  `Object.values` for non-index string keys.
- `Array.prototype.sort` with a numeric comparator is modelled by a stable
  insertion sort with the corresponding order.
- effectful inputs (`this.generateId()`, `new Date()`,
  `toLocaleDateString()`) are passed as explicit parameters.
- `localStorage` is modelled as the `storage` field of `ManagerState`;
  methods that end in `this.saveConversations()` write the serialized list
  to it.
-/

namespace VoiceInsight

/-- EmotionAnalysis (src/frontend/src/types: emotion payload attached to a
processing result). -/
structure EmotionAnalysis where
  primary_emotion : String
  emotion_scores : List (String × ℚ)
  confidence : ℚ
  category : String
  intensity : String
  deriving Repr, DecidableEq

/-- ProcessingResult (src/frontend/src/types): the structured payload the
analysis API returns for one audio submission. -/
structure ProcessingResult where
  transcript : String
  original_transcript : Option String
  transcript_confidence : ℚ
  language : String
  language_name : Option String
  is_south_indian_language : Option Bool
  sentiment : String
  sentiment_confidence : ℚ
  sentiment_scores : List (String × ℚ)
  processing_time : ℚ
  totalProcessingTime : Option ℚ
  sentiment_method : Option String
  emotions : Option EmotionAnalysis
  deriving Repr, DecidableEq

/-- Message type tag: 'user' | 'ai'. -/
inductive MsgType where
  | user
  | ai
  deriving Repr, DecidableEq

/-- Message (src/frontend/src/types).  `timestamp` is the instant in ms. -/
structure Message where
  id : String
  type : MsgType
  content : String
  timestamp : Int
  audioUrl : Option String
  processingResult : Option ProcessingResult
  isTyping : Option Bool
  deriving Repr, DecidableEq

/-- Derived per-conversation aggregate (the `emotionalSummary` field). -/
structure EmotionalSummary where
  dominantEmotion : String
  averageSentiment : ℚ
  emotionDistribution : List (String × Nat)
  deriving Repr, DecidableEq

/-- Conversation (src/frontend/src/types). -/
structure Conversation where
  id : String
  title : String
  messages : List Message
  createdAt : Int
  updatedAt : Int
  emotionalSummary : Option EmotionalSummary
  deriving Repr, DecidableEq

/-- The JSON image of a Message under `JSON.stringify`: every field is kept
verbatim; the `timestamp` Date is rendered by `toISOString`, identified here
with the instant it denotes (the rendering is injective and
`new Date(isoString)` recovers the instant exactly). -/
structure StoredMessage where
  id : String
  type : MsgType
  content : String
  timestamp : Int
  audioUrl : Option String
  processingResult : Option ProcessingResult
  isTyping : Option Bool
  deriving Repr, DecidableEq

/-- The JSON image of a Conversation under `JSON.stringify`. -/
structure StoredConversation where
  id : String
  title : String
  messages : List StoredMessage
  createdAt : Int
  updatedAt : Int
  emotionalSummary : Option EmotionalSummary
  deriving Repr, DecidableEq

/-- State of the ConversationManager instance together with the
`localStorage` key `conversations` it persists to (`storage`). -/
structure ManagerState where
  conversations : List Conversation
  currentConversationId : Option String
  storage : Option (List StoredConversation)
  deriving Repr, DecidableEq

/-- JSON.stringify of one message (inside saveConversations). -/
def serializeMessage (m : Message) : StoredMessage :=
  ⟨m.id, m.type, m.content, m.timestamp, m.audioUrl, m.processingResult, m.isTyping⟩

/-- JSON.stringify of one conversation (inside saveConversations). -/
def serializeConversation (c : Conversation) : StoredConversation :=
  ⟨c.id, c.title, c.messages.map serializeMessage, c.createdAt, c.updatedAt,
    c.emotionalSummary⟩

/-- The per-message reconstruction performed by loadConversations:
`{...msg, timestamp: new Date(msg.timestamp)}`. -/
def parseMessage (s : StoredMessage) : Message :=
  ⟨s.id, s.type, s.content, s.timestamp, s.audioUrl, s.processingResult, s.isTyping⟩

/-- The per-conversation reconstruction performed by loadConversations:
`{...conv, createdAt: new Date(...), updatedAt: new Date(...), messages: map}`. -/
def parseConversation (s : StoredConversation) : Conversation :=
  ⟨s.id, s.title, s.messages.map parseMessage, s.createdAt, s.updatedAt,
    s.emotionalSummary⟩

/-- ConversationManager.loadConversations: reads the `conversations` key;
an absent key (or a parse failure) leaves the list empty. -/
def loadConversations (storage : Option (List StoredConversation)) :
    List Conversation :=
  match storage with
  | none => []
  | some l => l.map parseConversation

/-- ConversationManager.saveConversations: `localStorage.setItem(
'conversations', JSON.stringify(this.conversations))` (success path; a quota
failure would leave `storage` unchanged and is not modelled). -/
def saveConversations (st : ManagerState) : ManagerState :=
  { st with storage := some (st.conversations.map serializeConversation) }

lemma parseMessage_serializeMessage (m : Message) :
    parseMessage (serializeMessage m) = m := rfl

lemma parseConversation_serializeConversation (c : Conversation) :
    parseConversation (serializeConversation c) = c := by
  have h : parseMessage ∘ serializeMessage = id := funext parseMessage_serializeMessage
  cases c with
  | mk id title messages createdAt updatedAt emotionalSummary =>
    simp [parseConversation, serializeConversation, List.map_map, h]

/-- C1: saving the conversation list and loading it back reconstructs the
exact in-memory list: every field round-trips (which in particular gives the
claimed "equal except audioUrl/isTyping" — those are plain JSON values whose
stored copies also survive, although the blob a stored audioUrl points to
does not), and every createdAt/updatedAt/message timestamp reconstructs to
the same instant. -/
theorem c1_save_load_round_trip (st : ManagerState) :
    loadConversations (saveConversations st).storage = st.conversations := by
  have h : parseConversation ∘ serializeConversation = id :=
    funext parseConversation_serializeConversation
  simp [loadConversations, saveConversations, List.map_map, h]

/-- JS `content.split(' ')`: splits on every single space, keeping empty
segments, exactly as `List.splitOn ' '` does on the character list. -/
def splitWords (content : String) : List String :=
  (content.toList.splitOn ' ').map List.asString

/-- ConversationManager.generateTitle: first 6 space-separated words,
with "..." appended when the content has more than 6 words. -/
def generateTitle (content : String) : String :=
  let words := (splitWords content).take 6
  String.intercalate " " words ++
    (if 6 < (splitWords content).length then "..." else "")

/-- JS `counts[e] = (counts[e] || 0) + 1` on an insertion-ordered dictionary:
an existing key keeps its position, a new key is appended at the end. -/
def bumpCount : List (String × Nat) → String → List (String × Nat)
  | [], e => [(e, 1)]
  | (k, n) :: rest, e =>
    if k = e then (k, n + 1) :: rest else (k, n) :: bumpCount rest e

/-- The emotionCounts dictionary built by updateEmotionalSummary's loop:
one bump per message whose processingResult carries an emotions payload. -/
def emotionCounts (msgs : List Message) : List (String × Nat) :=
  msgs.foldl
    (fun counts m =>
      match m.processingResult with
      | some pr =>
        match pr.emotions with
        | some em => bumpCount counts em.primary_emotion
        | none => counts
      | none => counts)
    []

/-- Sentiment polarity: 'positive' counts +1, 'negative' counts -1,
anything else 0. -/
def sentimentValue (sentiment : String) : ℚ :=
  if sentiment = "positive" then 1 else if sentiment = "negative" then -1 else 0

/-- The (totalSentiment, sentimentCount) accumulators of
updateEmotionalSummary's loop.  The JS guard is the truthiness test
`if (message.processingResult?.sentiment_confidence)`, so a message whose
sentiment_confidence is 0 is skipped entirely. -/
def sentimentTotals (msgs : List Message) : ℚ × Nat :=
  msgs.foldl
    (fun acc m =>
      match m.processingResult with
      | some pr =>
        if pr.sentiment_confidence ≠ 0 then
          (acc.1 + sentimentValue pr.sentiment * pr.sentiment_confidence,
            acc.2 + 1)
        else acc
      | none => acc)
    (0, 0)

/-- One step of the stable insertion sort modelling
`Object.entries(...).sort(([,a],[,b]) => b - a)`: the new entry goes after
every existing entry with a count greater than or equal to its own,
preserving insertion order on ties like the (stable) JS sort. -/
def insertDesc (p : String × Nat) : List (String × Nat) → List (String × Nat)
  | [] => [p]
  | q :: rest => if p.2 ≤ q.2 then q :: insertDesc p rest else p :: q :: rest

/-- Stable sort of dictionary entries by descending count. -/
def sortByCountDesc (l : List (String × Nat)) : List (String × Nat) :=
  l.foldl (fun acc p => insertDesc p acc) []

/-- ConversationManager.updateEmotionalSummary: recomputes the summary from
the message list; when no message carries emotion data the conversation is
left untouched (the previous summary, if any, is kept — the field is not
cleared). -/
def updateEmotionalSummary (conv : Conversation) : Conversation :=
  let counts := emotionCounts conv.messages
  let totals := sentimentTotals conv.messages
  if counts = [] then conv
  else
    { conv with
      emotionalSummary := some
        { dominantEmotion := ((sortByCountDesc counts).headD ("", 0)).1
          averageSentiment :=
            if 0 < totals.2 then totals.1 / (totals.2 : ℚ) else 0
          emotionDistribution := counts } }

/-- The `Omit<Message, 'id' | 'timestamp'>` argument of addMessage. -/
structure MessageInput where
  type : MsgType
  content : String
  audioUrl : Option String
  processingResult : Option ProcessingResult
  isTyping : Option Bool
  deriving Repr, DecidableEq

/-- ConversationManager.getCurrentConversation: null when the pointer is
unset (JS truthiness also rejects the empty string) or when no conversation
has the pointed-to id. -/
def getCurrentConversation (st : ManagerState) : Option Conversation :=
  match st.currentConversationId with
  | none => none
  | some cid =>
    if cid = "" then none else st.conversations.find? (fun c => c.id = cid)

/-- In-place mutation of the object `find?` located: replace the first list
element satisfying the predicate. -/
def replaceFirst (p : Conversation → Bool) (y : Conversation) :
    List Conversation → List Conversation
  | [] => []
  | c :: rest => if p c then y :: rest else c :: replaceFirst p y rest

/-- The mutation addMessage performs on the current conversation: append the
finalized message, bump updatedAt, derive the title from a first user
message, and recompute the emotional summary.  Returns the updated
conversation and the finalized message. -/
def addMsgConv (conv : Conversation) (input : MessageInput) (newId : String)
    (now : Int) : Conversation × Message :=
  let newMessage : Message :=
    ⟨newId, input.type, input.content, now, input.audioUrl,
      input.processingResult, input.isTyping⟩
  let conv1 := { conv with messages := conv.messages ++ [newMessage],
                           updatedAt := now }
  let conv2 :=
    if conv1.messages.length = 1 ∧ input.type = MsgType.user then
      { conv1 with title := generateTitle input.content }
    else conv1
  (updateEmotionalSummary conv2, newMessage)

/-- ConversationManager.addMessage.  The JS method throws
'No active conversation' before touching any state; the thrown path is
modelled by returning the unchanged state together with the error. -/
def addMessage (st : ManagerState) (input : MessageInput) (newId : String)
    (now : Int) : ManagerState × Except String Message :=
  match getCurrentConversation st with
  | none => (st, Except.error "No active conversation")
  | some conv =>
    let r := addMsgConv conv input newId now
    let st1 := { st with
      conversations := replaceFirst (fun c => c.id = conv.id) r.1 st.conversations }
    (saveConversations st1, Except.ok r.2)

/-- The `Partial<Message>` argument of updateMessage: an outer `none` means
the key is absent from the update object; `some v` means the key is present
with value `v` (for the optional Message fields `v` is itself an Option,
matching an explicit `undefined` in JS). -/
structure MessageUpdate where
  id : Option String
  type : Option MsgType
  content : Option String
  timestamp : Option Int
  audioUrl : Option (Option String)
  processingResult : Option (Option ProcessingResult)
  isTyping : Option (Option Bool)
  deriving Repr, DecidableEq

/-- The JS spread `{...message, ...updates}`. -/
def applyUpdate (m : Message) (u : MessageUpdate) : Message :=
  ⟨u.id.getD m.id, u.type.getD m.type, u.content.getD m.content,
    u.timestamp.getD m.timestamp, u.audioUrl.getD m.audioUrl,
    u.processingResult.getD m.processingResult, u.isTyping.getD m.isTyping⟩

/-- findIndex + in-place element assignment on the message list: `none`
when no message has the id. -/
def updateFirstMsg (messageId : String) (u : MessageUpdate) :
    List Message → Option (List Message)
  | [] => none
  | m :: rest =>
    if m.id = messageId then some (applyUpdate m u :: rest)
    else (updateFirstMsg messageId u rest).map (fun l => m :: l)

/-- ConversationManager.updateMessage: no-op when there is no current
conversation or the id is not among the current conversation's messages;
otherwise merge the fields, bump updatedAt and persist.  The emotional
summary is NOT recomputed here. -/
def updateMessage (st : ManagerState) (messageId : String)
    (updates : MessageUpdate) (now : Int) : ManagerState :=
  match getCurrentConversation st with
  | none => st
  | some conv =>
    match updateFirstMsg messageId updates conv.messages with
    | none => st
    | some msgs =>
      let conv1 := { conv with messages := msgs, updatedAt := now }
      saveConversations
        { st with
          conversations := replaceFirst (fun c => c.id = conv.id) conv1 st.conversations }

/-- ConversationManager.deleteConversation: filter the id out, clear the
current pointer when it pointed at the deleted id, persist. -/
def deleteConversation (st : ManagerState) (id : String) : ManagerState :=
  let conversations := st.conversations.filter (fun c => c.id ≠ id)
  let current :=
    if st.currentConversationId = some id then none
    else st.currentConversationId
  saveConversations
    { st with conversations := conversations, currentConversationId := current }

/-- ConversationManager.createConversation.  `newId` models
`this.generateId()`, `now` models `new Date()`, and `localeDate` models
`new Date().toLocaleDateString()`.  The JS default kicks in for an absent
OR empty title (`title || ...`). -/
def createConversation (st : ManagerState) (title : Option String)
    (newId : String) (now : Int) (localeDate : String) :
    ManagerState × Conversation :=
  let conversation : Conversation :=
    { id := newId
      title :=
        match title with
        | some t => if t = "" then "Conversation " ++ localeDate else t
        | none => "Conversation " ++ localeDate
      messages := []
      createdAt := now
      updatedAt := now
      emotionalSummary := none }
  let st1 := { st with conversations := conversation :: st.conversations,
                       currentConversationId := some conversation.id }
  (saveConversations st1, conversation)

/-- ConversationManager.setCurrentConversation: pointer switch, no
validation, no persistence. -/
def setCurrentConversation (st : ManagerState) (id : String) : ManagerState :=
  { st with currentConversationId := some id }

/-- The store mutations other than creating or selecting a conversation. -/
inductive StoreOp where
  | add (input : MessageInput) (newId : String) (now : Int)
  | update (messageId : String) (u : MessageUpdate) (now : Int)
  | delete (id : String)

/-- Apply one store operation (dropping addMessage's returned message). -/
def applyOp (st : ManagerState) : StoreOp → ManagerState
  | StoreOp.add input newId now => (addMessage st input newId now).1
  | StoreOp.update messageId u now => updateMessage st messageId u now
  | StoreOp.delete id => deleteConversation st id

/-- Apply a sequence of store operations. -/
def applyOps (st : ManagerState) (ops : List StoreOp) : ManagerState :=
  ops.foldl applyOp st

/-- CloudWatchMetric (src/frontend/src/services: metrics batcher entry). -/
structure CloudWatchMetric where
  name : String
  value : ℚ
  dimensions : Option (List (String × String))
  timestamp : Option Int
  deriving Repr, DecidableEq

/-- State of the CloudWatchService singleton: the in-memory queue and the
environment's production flag. -/
structure CloudWatchState where
  metricsQueue : List CloudWatchMetric
  isProduction : Bool
  deriving Repr, DecidableEq

/-- CloudWatchService.batchSize. -/
def batchSize : Nat := 10

/-- CloudWatchService.flushInterval (ms). -/
def flushInterval : Nat := 30000

/-- CloudWatchService.flushMetrics up to its synchronous splice: removes up
to batchSize entries from the front of the queue and hands them off for
sending (the asynchronous POST and the re-queue-on-failure path happen
after the splice and are not modelled). -/
def flushMetrics (st : CloudWatchState) :
    CloudWatchState × Option (List CloudWatchMetric) :=
  if st.metricsQueue.length = 0 ∨ st.isProduction = false then (st, none)
  else
    ({ st with metricsQueue := st.metricsQueue.drop batchSize },
      some (st.metricsQueue.take batchSize))

/-- CloudWatchService.addMetric: dev mode only logs; production mode pushes
the metric and flushes immediately once the queue holds at least batchSize
entries.  The second component is the batch extracted by that immediate
flush, if one fired. -/
def addMetric (st : CloudWatchState) (name : String) (value : ℚ)
    (dimensions : Option (List (String × String))) (now : Int) :
    CloudWatchState × Option (List CloudWatchMetric) :=
  if st.isProduction = false then (st, none)
  else
    let st1 := { st with
      metricsQueue := st.metricsQueue ++ [⟨name, value, dimensions, some now⟩] }
    if batchSize ≤ st1.metricsQueue.length then flushMetrics st1
    else (st1, none)

/-- EmotionalInsight (src/frontend/src/types).  The JS `date` field is the
`toDateString()` key; it is modelled by the calendar day index the string
denotes (the environment timezone is taken to be UTC, so a timestamp's day
is its floored quotient by msPerDay). -/
structure EmotionalInsight where
  date : Int
  dominantEmotion : String
  sentimentScore : ℚ
  conversationCount : Nat
  emotionBreakdown : List (String × Nat)
  deriving Repr, DecidableEq

/-- Milliseconds per day. -/
def msPerDay : Int := 86400000

/-- The calendar day of an instant (UTC model of `toDateString`). -/
def dayKey (ts : Int) : Int := Int.fdiv ts msPerDay

/-- The fresh insight created for a day key not seen before. -/
def freshInsight (d : Int) : EmotionalInsight :=
  ⟨d, "", 0, 0, []⟩

/-- JS `breakdown[e] = (breakdown[e] || 0) + n` on the insertion-ordered
emotionBreakdown dictionary. -/
def bumpCountBy : List (String × Nat) → String → Nat → List (String × Nat)
  | [], e, n => [(e, n)]
  | (k, m) :: rest, e, n =>
    if k = e then (k, m + n) :: rest else (k, m) :: bumpCountBy rest e n

/-- The per-conversation body of getEmotionalInsights' forEach: count the
conversation, and fold its summary (when present) into the day's sentiment
accumulator and emotion breakdown. -/
def addConvToInsight (i : EmotionalInsight) (conv : Conversation) :
    EmotionalInsight :=
  let i1 := { i with conversationCount := i.conversationCount + 1 }
  match conv.emotionalSummary with
  | none => i1
  | some s =>
    { i1 with
      sentimentScore := i1.sentimentScore + s.averageSentiment
      emotionBreakdown :=
        s.emotionDistribution.foldl (fun b p => bumpCountBy b p.1 p.2)
          i1.emotionBreakdown }

/-- Route one in-window conversation into the insights dictionary: the JS
code creates a fresh entry when the day key is unseen (new string keys are
appended at the end of the dictionary), then mutates the day's entry. -/
def insertConv : List EmotionalInsight → Conversation → List EmotionalInsight
  | [], conv => [addConvToInsight (freshInsight (dayKey conv.updatedAt)) conv]
  | i :: rest, conv =>
    if i.date = dayKey conv.updatedAt then addConvToInsight i conv :: rest
    else i :: insertConv rest conv

/-- The finalization forEach: divide the accumulated sentiment by the
conversation count and re-derive the dominant emotion from the summed
breakdown (left untouched when the breakdown is empty). -/
def finalizeInsight (i : EmotionalInsight) : EmotionalInsight :=
  if 0 < i.conversationCount then
    let i1 := { i with
      sentimentScore := i.sentimentScore / (i.conversationCount : ℚ) }
    match sortByCountDesc i1.emotionBreakdown with
    | [] => i1
    | (e, _) :: _ => { i1 with dominantEmotion := e }
  else i

/-- One step of the stable sort modelling the final
`.sort((a, b) => new Date(a.date).getTime() - new Date(b.date).getTime())`. -/
def insertAscByDate (x : EmotionalInsight) :
    List EmotionalInsight → List EmotionalInsight
  | [] => [x]
  | y :: rest =>
    if y.date ≤ x.date then y :: insertAscByDate x rest else x :: y :: rest

/-- Stable ascending-by-date sort of the insight list. -/
def sortInsightsByDate (l : List EmotionalInsight) : List EmotionalInsight :=
  l.foldl (fun acc i => insertAscByDate i acc) []

/-- The conversations inside the trailing window: `conv.updatedAt >=
cutoffDate` with `cutoffDate = now - days` (calendar subtraction, exact in
the UTC model). -/
def inWindowConvs (st : ManagerState) (now : Int) (days : Int) :
    List Conversation :=
  st.conversations.filter (fun c => decide (now - days * msPerDay ≤ c.updatedAt))

/-- ConversationManager.getEmotionalInsights. -/
def getEmotionalInsights (st : ManagerState) (now : Int) (days : Int) :
    List EmotionalInsight :=
  sortInsightsByDate
    (((inWindowConvs st now days).foldl insertConv []).map finalizeInsight)

/-- The in-window conversations of one calendar day. -/
def convsOfDay (d : Int) (l : List Conversation) : List Conversation :=
  l.filter (fun c => decide (dayKey c.updatedAt = d))

/-- Whether a message carries an emotion analysis. -/
def hasEmotion (m : Message) : Bool :=
  (m.processingResult.bind (fun pr => pr.emotions)).isSome

/-- The sequence of primary emotions over the emotion-bearing messages, in
message order. -/
def emotionsOf (msgs : List Message) : List String :=
  msgs.filterMap
    (fun m =>
      (m.processingResult.bind (fun pr => pr.emotions)).map
        (fun em => em.primary_emotion))

/-- The polarity-times-confidence contributions the summarizer's loop
actually accumulates: one entry per message whose processingResult is
present with a nonzero (truthy) sentiment_confidence. -/
def sentimentContributions (msgs : List Message) : List ℚ :=
  msgs.filterMap
    (fun m =>
      match m.processingResult with
      | some pr =>
        if pr.sentiment_confidence ≠ 0 then
          some (sentimentValue pr.sentiment * pr.sentiment_confidence)
        else none
      | none => none)

/-- Modelled from the spec wording of claim C3 (for comparison with the
code): the mean of polarity times confidence over the messages carrying
sentiment analysis, i.e. over every message whose processingResult is
present, and 0 when there is none. -/
def specAverageSentiment (msgs : List Message) : ℚ :=
  let vals := msgs.filterMap
    (fun m =>
      m.processingResult.map
        (fun pr => sentimentValue pr.sentiment * pr.sentiment_confidence))
  if vals = [] then 0 else vals.sum / (vals.length : ℚ)

/-- Occurrence count of a key in an association-list dictionary (sums all
entries with the key; when the keys are distinct this is the single stored
count, and 0 for an absent key). -/
def countOf (e : String) : List (String × Nat) → Nat
  | [] => 0
  | p :: rest => (if p.1 = e then p.2 else 0) + countOf e rest

/-! Dictionary-counting lemmas. -/

lemma bumpCount_ne_nil (l : List (String × Nat)) (e : String) :
    bumpCount l e ≠ [] := by
  cases l with
  | nil => simp [bumpCount]
  | cons p rest =>
    by_cases h : p.1 = e <;> simp [bumpCount, h]

lemma countOf_bumpCount (l : List (String × Nat)) (x e : String) :
    countOf e (bumpCount l x) = countOf e l + (if x = e then 1 else 0) := by
  induction l with
  | nil => by_cases h : x = e <;> simp [bumpCount, countOf, h]
  | cons p rest ih =>
    obtain ⟨k, n⟩ := p
    by_cases hk : k = x
    · have hbump : bumpCount ((k, n) :: rest) x = (k, n + 1) :: rest := by
        simp [bumpCount, hk]
      rw [hbump]
      by_cases he : k = e
      · have hxe : x = e := hk ▸ he
        simp [countOf, he, hxe]; omega
      · have hxe : ¬ x = e := fun hh => he (hk.trans hh)
        simp [countOf, he, hxe]
    · by_cases he : k = e
      · have hex : ¬ e = x := fun hh => hk (he.trans hh)
        simp [bumpCount, countOf, hk, he, hex, ih]; omega
      · simp [bumpCount, countOf, hk, he, ih]

lemma keys_bumpCount (l : List (String × Nat)) (x : String) :
    (bumpCount l x).map Prod.fst =
      if x ∈ l.map Prod.fst then l.map Prod.fst
      else l.map Prod.fst ++ [x] := by
  induction l with
  | nil => simp [bumpCount]
  | cons p rest ih =>
    by_cases hk : p.1 = x
    · simp [bumpCount, hk]
    · have hne : ¬ x = p.1 := fun h => hk h.symm
      by_cases hm : x ∈ rest.map Prod.fst <;>
        simp [bumpCount, hk, hne, hm, ih]

lemma foldl_bumpCount_eq_nil (l : List String) (acc : List (String × Nat)) :
    l.foldl bumpCount acc = [] ↔ acc = [] ∧ l = [] := by
  induction l generalizing acc with
  | nil => simp
  | cons x rest ih =>
    simp only [List.foldl_cons, ih]
    constructor
    · rintro ⟨h, -⟩; exact absurd h (bumpCount_ne_nil acc x)
    · rintro ⟨-, h⟩; exact absurd h (by simp)

lemma countOf_foldl_bumpCount (l : List String) (acc : List (String × Nat))
    (e : String) :
    countOf e (l.foldl bumpCount acc) = countOf e acc + l.count e := by
  induction l generalizing acc with
  | nil => simp
  | cons x rest ih =>
    simp only [List.foldl_cons, ih, countOf_bumpCount, List.count_cons]
    by_cases h : x = e <;> simp [h] <;> omega

lemma keys_nodup_foldl_bumpCount (l : List String) (acc : List (String × Nat))
    (h : (acc.map Prod.fst).Nodup) :
    ((l.foldl bumpCount acc).map Prod.fst).Nodup := by
  induction l generalizing acc with
  | nil => exact h
  | cons x rest ih =>
    refine ih (bumpCount acc x) ?_
    rw [keys_bumpCount]
    by_cases hm : x ∈ acc.map Prod.fst
    · simpa [hm] using h
    · simp only [hm, if_false]
      exact List.Nodup.append h (List.nodup_singleton x)
        (by simpa using hm)

lemma mem_keys_foldl_bumpCount (l : List String) (acc : List (String × Nat))
    (p : String × Nat) (h : p ∈ l.foldl bumpCount acc) :
    p.1 ∈ acc.map Prod.fst ∨ p.1 ∈ l := by
  induction l generalizing acc with
  | nil => simp at h; exact Or.inl (List.mem_map_of_mem Prod.fst h)
  | cons x rest ih =>
    rcases ih (bumpCount acc x) (by simpa using h) with hm | hm
    · rw [keys_bumpCount] at hm
      by_cases hx : x ∈ acc.map Prod.fst
      · rw [if_pos hx] at hm; exact Or.inl hm
      · rw [if_neg hx] at hm
        rcases List.mem_append.mp hm with hm | hm
        · exact Or.inl hm
        · refine Or.inr ?_
          have : p.1 = x := by simpa using hm
          simp [this]
    · exact Or.inr (List.mem_cons_of_mem x hm)

lemma countOf_eq_zero_of_not_mem_keys (l : List (String × Nat)) (k : String)
    (h : k ∉ l.map Prod.fst) : countOf k l = 0 := by
  induction l with
  | nil => rfl
  | cons p rest ih =>
    simp only [List.map_cons, List.mem_cons, not_or] at h
    have hp : ¬ p.1 = k := fun hk => h.1 hk.symm
    simp [countOf, hp, ih h.2]

lemma countOf_entry_of_nodup (l : List (String × Nat)) (k : String) (n : Nat)
    (hnd : (l.map Prod.fst).Nodup) (h : (k, n) ∈ l) : countOf k l = n := by
  induction l with
  | nil => simp at h
  | cons p rest ih =>
    simp only [List.map_cons, List.nodup_cons] at hnd
    rcases List.mem_cons.mp h with h | h
    · subst h
      simp [countOf, countOf_eq_zero_of_not_mem_keys rest k hnd.1]
    · have hk : ¬ p.1 = k := by
        intro he
        exact hnd.1 (he ▸ List.mem_map_of_mem Prod.fst h)
      simp [countOf, hk, ih hnd.2 h]

lemma entry_of_countOf_ne_zero (l : List (String × Nat)) (k : String)
    (hnd : (l.map Prod.fst).Nodup) (h : countOf k l ≠ 0) :
    (k, countOf k l) ∈ l := by
  induction l with
  | nil => simp [countOf] at h
  | cons p rest ih =>
    obtain ⟨k1, n1⟩ := p
    simp only [List.map_cons, List.nodup_cons] at hnd
    by_cases hk : k1 = k
    · subst hk
      have hz : countOf k1 rest = 0 :=
        countOf_eq_zero_of_not_mem_keys rest k1 hnd.1
      have hc : countOf k1 ((k1, n1) :: rest) = n1 := by simp [countOf, hz]
      rw [hc]
      exact List.mem_cons_self (k1, n1) rest
    · have hc : countOf k ((k1, n1) :: rest) = countOf k rest := by
        simp [countOf, hk]
      rw [hc] at h ⊢
      exact List.mem_cons_of_mem (k1, n1) (ih hnd.2 h)

/-! Sorting lemmas for the descending-by-count stable sort. -/

lemma mem_insertDesc (p x : String × Nat) (l : List (String × Nat)) :
    x ∈ insertDesc p l ↔ x = p ∨ x ∈ l := by
  induction l with
  | nil => simp [insertDesc]
  | cons q rest ih =>
    by_cases h : p.2 ≤ q.2 <;> simp [insertDesc, h, ih] <;> tauto

lemma pairwise_insertDesc (p : String × Nat) (l : List (String × Nat))
    (h : l.Pairwise (fun a b => b.2 ≤ a.2)) :
    (insertDesc p l).Pairwise (fun a b => b.2 ≤ a.2) := by
  induction l with
  | nil => simp [insertDesc]
  | cons q rest ih =>
    rw [List.pairwise_cons] at h
    by_cases hle : p.2 ≤ q.2
    · rw [insertDesc, if_pos hle, List.pairwise_cons]
      refine ⟨fun b hb => ?_, ih h.2⟩
      rcases (mem_insertDesc p b rest).mp hb with rfl | hb
      · exact hle
      · exact h.1 b hb
    · rw [insertDesc, if_neg hle, List.pairwise_cons]
      refine ⟨fun b hb => ?_, List.pairwise_cons.mpr h⟩
      rcases List.mem_cons.mp hb with rfl | hb
      · omega
      · have := h.1 b hb; omega

lemma mem_foldl_insertDesc (l acc : List (String × Nat)) (x : String × Nat) :
    x ∈ l.foldl (fun acc p => insertDesc p acc) acc ↔ x ∈ acc ∨ x ∈ l := by
  induction l generalizing acc with
  | nil => simp
  | cons p rest ih =>
    simp only [List.foldl_cons, ih, mem_insertDesc, List.mem_cons]
    tauto

lemma mem_sortByCountDesc (l : List (String × Nat)) (x : String × Nat) :
    x ∈ sortByCountDesc l ↔ x ∈ l := by
  simp [sortByCountDesc, mem_foldl_insertDesc]

lemma pairwise_sortByCountDesc (l : List (String × Nat)) :
    (sortByCountDesc l).Pairwise (fun a b => b.2 ≤ a.2) := by
  rw [sortByCountDesc]
  have h : ∀ acc, acc.Pairwise (fun a b : String × Nat => b.2 ≤ a.2) →
      (l.foldl (fun acc p => insertDesc p acc) acc).Pairwise
        (fun a b => b.2 ≤ a.2) := by
    induction l with
    | nil => exact fun acc h => h
    | cons p rest ih =>
      exact fun acc h => ih (insertDesc p acc) (pairwise_insertDesc p acc h)
  exact h [] (by simp)

lemma sortByCountDesc_head_max (l : List (String × Nat)) (h : l ≠ []) :
    (sortByCountDesc l).headD ("", 0) ∈ l ∧
      ∀ x ∈ l, x.2 ≤ ((sortByCountDesc l).headD ("", 0)).2 := by
  obtain ⟨p, hp⟩ := List.exists_mem_of_ne_nil l h
  have hmem : p ∈ sortByCountDesc l := (mem_sortByCountDesc l p).mpr hp
  obtain ⟨q, t, ht⟩ : ∃ q t, sortByCountDesc l = q :: t := by
    cases hs : sortByCountDesc l with
    | nil => rw [hs] at hmem; simp at hmem
    | cons q t => exact ⟨q, t, rfl⟩
  rw [ht, List.headD_cons]
  have hpw := pairwise_sortByCountDesc l
  rw [ht, List.pairwise_cons] at hpw
  refine ⟨(mem_sortByCountDesc l q).mp (by simp [ht]), fun x hx => ?_⟩
  have hxs : x ∈ q :: t := by
    rw [← ht]; exact (mem_sortByCountDesc l x).mpr hx
  rcases List.mem_cons.mp hxs with rfl | hxs
  · exact le_refl _
  · exact hpw.1 x hxs

/-! Characterization of the summarizer's accumulators. -/

lemma emotionCounts_eq_aux (msgs : List Message) (acc : List (String × Nat)) :
    msgs.foldl
      (fun counts m =>
        match m.processingResult with
        | some pr =>
          match pr.emotions with
          | some em => bumpCount counts em.primary_emotion
          | none => counts
        | none => counts)
      acc
    = (emotionsOf msgs).foldl bumpCount acc := by
  induction msgs generalizing acc with
  | nil => rfl
  | cons m rest ih =>
    cases hpr : m.processingResult with
    | none =>
      simp only [List.foldl_cons, hpr, ih]
      simp only [emotionsOf, List.filterMap_cons, hpr, Option.none_bind,
        Option.map_none']
    | some pr =>
      cases hem : pr.emotions with
      | none =>
        simp only [List.foldl_cons, hpr, hem, ih]
        simp only [emotionsOf, List.filterMap_cons, hpr, hem,
          Option.some_bind, Option.map_none']
      | some em =>
        simp only [List.foldl_cons, hpr, hem, ih]
        simp only [emotionsOf, List.filterMap_cons, hpr, hem,
          Option.some_bind, Option.map_some', List.foldl_cons]

lemma emotionCounts_eq (msgs : List Message) :
    emotionCounts msgs = (emotionsOf msgs).foldl bumpCount [] :=
  emotionCounts_eq_aux msgs []

lemma emotionCounts_eq_nil_iff (msgs : List Message) :
    emotionCounts msgs = [] ↔ emotionsOf msgs = [] := by
  rw [emotionCounts_eq, foldl_bumpCount_eq_nil]
  simp

lemma countOf_emotionCounts (msgs : List Message) (e : String) :
    countOf e (emotionCounts msgs) = (emotionsOf msgs).count e := by
  rw [emotionCounts_eq, countOf_foldl_bumpCount]
  simp [countOf]

lemma keys_nodup_emotionCounts (msgs : List Message) :
    ((emotionCounts msgs).map Prod.fst).Nodup := by
  rw [emotionCounts_eq]
  exact keys_nodup_foldl_bumpCount _ [] (by simp)

lemma mem_keys_emotionCounts (msgs : List Message) (p : String × Nat)
    (h : p ∈ emotionCounts msgs) : p.1 ∈ emotionsOf msgs := by
  rw [emotionCounts_eq] at h
  rcases mem_keys_foldl_bumpCount _ [] p h with h | h
  · simp at h
  · exact h

lemma sentimentTotals_eq_aux (msgs : List Message) (a : ℚ) (n : Nat) :
    msgs.foldl
      (fun acc m =>
        match m.processingResult with
        | some pr =>
          if pr.sentiment_confidence ≠ 0 then
            (acc.1 + sentimentValue pr.sentiment * pr.sentiment_confidence,
              acc.2 + 1)
          else acc
        | none => acc)
      (a, n)
    = (a + (sentimentContributions msgs).sum,
        n + (sentimentContributions msgs).length) := by
  induction msgs generalizing a n with
  | nil => simp [sentimentContributions]
  | cons m rest ih =>
    cases hpr : m.processingResult with
    | none =>
      simp only [List.foldl_cons, hpr, ih]
      simp only [sentimentContributions, List.filterMap_cons, hpr]
    | some pr =>
      by_cases hc : pr.sentiment_confidence ≠ 0
      · simp only [List.foldl_cons, hpr, if_pos hc, ih]
        simp only [sentimentContributions, List.filterMap_cons, hpr,
          if_pos hc, List.sum_cons, List.length_cons, Prod.mk.injEq]
        constructor
        · ring
        · omega
      · simp only [List.foldl_cons, hpr, if_neg hc, ih]
        simp only [sentimentContributions, List.filterMap_cons, hpr,
          if_neg hc]

lemma sentimentTotals_eq (msgs : List Message) :
    sentimentTotals msgs =
      ((sentimentContributions msgs).sum,
        (sentimentContributions msgs).length) := by
  have h := sentimentTotals_eq_aux msgs 0 0
  simpa [sentimentTotals] using h

/-! Characterization of updateEmotionalSummary. -/

lemma updateEmotionalSummary_of_counts_ne_nil (conv : Conversation)
    (h : emotionCounts conv.messages ≠ []) :
    (updateEmotionalSummary conv).emotionalSummary = some
      { dominantEmotion :=
          ((sortByCountDesc (emotionCounts conv.messages)).headD ("", 0)).1
        averageSentiment :=
          if 0 < (sentimentTotals conv.messages).2 then
            (sentimentTotals conv.messages).1 /
              ((sentimentTotals conv.messages).2 : ℚ)
          else 0
        emotionDistribution := emotionCounts conv.messages } := by
  simp [updateEmotionalSummary, h]

lemma updateEmotionalSummary_of_counts_nil (conv : Conversation)
    (h : emotionCounts conv.messages = []) :
    updateEmotionalSummary conv = conv := by
  simp [updateEmotionalSummary, h]

lemma updateEmotionalSummary_isSome (conv : Conversation) :
    (updateEmotionalSummary conv).emotionalSummary.isSome = true ↔
      (emotionCounts conv.messages ≠ [] ∨
        conv.emotionalSummary.isSome = true) := by
  by_cases h : emotionCounts conv.messages = [] <;>
    simp [updateEmotionalSummary, h]

lemma updateEmotionalSummary_id (conv : Conversation) :
    (updateEmotionalSummary conv).id = conv.id := by
  by_cases h : emotionCounts conv.messages = [] <;>
    simp [updateEmotionalSummary, h]

lemma updateEmotionalSummary_messages (conv : Conversation) :
    (updateEmotionalSummary conv).messages = conv.messages := by
  by_cases h : emotionCounts conv.messages = [] <;>
    simp [updateEmotionalSummary, h]

lemma updateEmotionalSummary_title (conv : Conversation) :
    (updateEmotionalSummary conv).title = conv.title := by
  by_cases h : emotionCounts conv.messages = [] <;>
    simp [updateEmotionalSummary, h]

/-- Shared characterization: when emotion-bearing messages exist, the
freshly computed summary stores the full counts dictionary and a dominant
emotion of maximal occurrence count. -/
lemma summary_dominant_spec (conv : Conversation)
    (h : emotionsOf conv.messages ≠ []) :
    ∃ s, (updateEmotionalSummary conv).emotionalSummary = some s ∧
      s.emotionDistribution = emotionCounts conv.messages ∧
      s.dominantEmotion ∈ emotionsOf conv.messages ∧
      ∀ e : String, (emotionsOf conv.messages).count e ≤
        (emotionsOf conv.messages).count s.dominantEmotion := by
  have hcne : emotionCounts conv.messages ≠ [] := by
    rw [Ne, emotionCounts_eq_nil_iff]; exact h
  obtain ⟨hm, hmax⟩ := sortByCountDesc_head_max (emotionCounts conv.messages) hcne
  refine ⟨_, updateEmotionalSummary_of_counts_ne_nil conv hcne, rfl, ?_, ?_⟩
  · exact mem_keys_emotionCounts conv.messages _ hm
  · intro e
    set hd := (sortByCountDesc (emotionCounts conv.messages)).headD ("", 0) with hhd
    have hdc : countOf hd.1 (emotionCounts conv.messages) = hd.2 :=
      countOf_entry_of_nodup _ _ _ (keys_nodup_emotionCounts conv.messages) hm
    rw [← countOf_emotionCounts, ← countOf_emotionCounts, hdc]
    by_cases hz : countOf e (emotionCounts conv.messages) = 0
    · omega
    · have hentry := entry_of_countOf_ne_zero _ e
        (keys_nodup_emotionCounts conv.messages) hz
      exact hmax _ hentry

/-- C2: a conversation whose emotion-bearing messages carry the primary
emotions happy, happy, sad — in any append order — gets the summary
dominantEmotion "happy" and the distribution with happy at 2, sad at 1 and
no other key; and in general the dominant emotion is a label of maximal
occurrence count among the emotion-bearing messages. -/
theorem c2_dominant_emotion :
    (∀ conv : Conversation,
        List.Perm (emotionsOf conv.messages) ["happy", "happy", "sad"] →
        ∃ s, (updateEmotionalSummary conv).emotionalSummary = some s ∧
          s.dominantEmotion = "happy" ∧
          countOf "happy" s.emotionDistribution = 2 ∧
          countOf "sad" s.emotionDistribution = 1 ∧
          (∀ p ∈ s.emotionDistribution, p.1 = "happy" ∨ p.1 = "sad"))
    ∧ (∀ conv : Conversation, emotionsOf conv.messages ≠ [] →
        ∃ s, (updateEmotionalSummary conv).emotionalSummary = some s ∧
          s.dominantEmotion ∈ emotionsOf conv.messages ∧
          ∀ e : String, (emotionsOf conv.messages).count e ≤
            (emotionsOf conv.messages).count s.dominantEmotion) := by
  constructor
  · intro conv hperm
    have hne : emotionsOf conv.messages ≠ [] := by
      intro hnil
      have := hperm.length_eq
      rw [hnil] at this
      simp at this
    obtain ⟨s, hs, hdist, hdom, hmaxc⟩ := summary_dominant_spec conv hne
    have hhappy : (emotionsOf conv.messages).count "happy" = 2 := by
      rw [hperm.count_eq]; rfl
    have hsad : (emotionsOf conv.messages).count "sad" = 1 := by
      rw [hperm.count_eq]; rfl
    have hdom2 : s.dominantEmotion = "happy" ∨ s.dominantEmotion = "sad" := by
      have := hperm.mem_iff.mp hdom
      simpa using this
    have hdomhappy : s.dominantEmotion = "happy" := by
      rcases hdom2 with hh | hh
      · exact hh
      · exfalso
        have := hmaxc "happy"
        rw [hhappy, hh, hsad] at this
        omega
    refine ⟨s, hs, hdomhappy, ?_, ?_, ?_⟩
    · rw [hdist, countOf_emotionCounts, hhappy]
    · rw [hdist, countOf_emotionCounts, hsad]
    · intro p hp
      rw [hdist] at hp
      have := mem_keys_emotionCounts conv.messages p hp
      have := hperm.mem_iff.mp this
      simpa using this
  · intro conv hne
    obtain ⟨s, hs, _, hdom, hmaxc⟩ := summary_dominant_spec conv hne
    exact ⟨s, hs, hdom, hmaxc⟩

/-! Concrete inputs for the summary claims. -/

/-- A processing result carrying a happy emotion and positive sentiment at
confidence 4/5 (0.8). -/
def prPos : ProcessingResult :=
  { transcript := "t", original_transcript := none, transcript_confidence := 1
    language := "en", language_name := none, is_south_indian_language := none
    sentiment := "positive", sentiment_confidence := 4/5
    sentiment_scores := [], processing_time := 1, totalProcessingTime := none
    sentiment_method := none
    emotions := some
      { primary_emotion := "happy", emotion_scores := [], confidence := 9/10
        category := "positive", intensity := "high" } }

/-- A processing result with negative sentiment at confidence 0: it carries
sentiment analysis, but the code's truthiness guard skips it. -/
def prNegZero : ProcessingResult :=
  { transcript := "t", original_transcript := none, transcript_confidence := 1
    language := "en", language_name := none, is_south_indian_language := none
    sentiment := "negative", sentiment_confidence := 0
    sentiment_scores := [], processing_time := 1, totalProcessingTime := none
    sentiment_method := none, emotions := none }

/-- A processing result with negative sentiment at confidence 2/5 (0.4). -/
def prNeg : ProcessingResult :=
  { transcript := "t", original_transcript := none, transcript_confidence := 1
    language := "en", language_name := none, is_south_indian_language := none
    sentiment := "negative", sentiment_confidence := 2/5
    sentiment_scores := [], processing_time := 1, totalProcessingTime := none
    sentiment_method := none, emotions := none }

/-- Conversation on which the claimed averageSentiment formula and the code
disagree: messages (positive, 0.8) and (negative, 0). -/
def convC3 : Conversation :=
  { id := "c1", title := "t"
    messages :=
      [⟨"m1", MsgType.user, "a", 0, none, some prPos, none⟩,
       ⟨"m2", MsgType.ai, "b", 1, none, some prNegZero, none⟩]
    createdAt := 0, updatedAt := 1, emotionalSummary := none }

/-- Conversation realizing the spec's scenario: messages (positive, 0.8)
and (negative, 0.4). -/
def convC3b : Conversation :=
  { id := "c1", title := "t"
    messages :=
      [⟨"m1", MsgType.user, "a", 0, none, some prPos, none⟩,
       ⟨"m2", MsgType.ai, "b", 1, none, some prNeg, none⟩]
    createdAt := 0, updatedAt := 1, emotionalSummary := none }

/-- C3 counterexample: on a conversation with messages (positive, 0.8) and
(negative, 0), both of which carry sentiment analysis, the code computes
averageSentiment 4/5 (it skips the zero-confidence message entirely), while
the claimed mean over messages carrying sentiment analysis is 2/5. -/
theorem c3_counterexample :
    (updateEmotionalSummary convC3).emotionalSummary.map
        (fun s => s.averageSentiment) = some (4/5) ∧
      specAverageSentiment convC3.messages = 2/5 ∧ ¬ ((4 : ℚ)/5 = 2/5) := by
  refine ⟨?_, ?_, by norm_num⟩
  · simp [updateEmotionalSummary, emotionCounts, sentimentTotals, convC3,
      prPos, prNegZero, bumpCount, sentimentValue, sortByCountDesc,
      insertDesc]
  · simp [specAverageSentiment, convC3, prPos, prNegZero, sentimentValue]
    norm_num

/-- C3 (amended): whenever the summary is recomputed (some message carries
emotion data), averageSentiment is the mean of polarity times confidence
over the messages whose sentiment_confidence is truthy (nonzero) — a
zero-confidence message is excluded from both the sum and the denominator —
and 0 when no such message exists; the spec's concrete scenario
(positive, 0.8) and (negative, 0.4) yields 1/5 (0.2). -/
theorem c3_average_sentiment :
    (∀ conv : Conversation, emotionCounts conv.messages ≠ [] →
        ∃ s, (updateEmotionalSummary conv).emotionalSummary = some s ∧
          s.averageSentiment =
            (if sentimentContributions conv.messages = [] then 0
             else (sentimentContributions conv.messages).sum /
               ((sentimentContributions conv.messages).length : ℚ)))
    ∧ (updateEmotionalSummary convC3b).emotionalSummary.map
        (fun s => s.averageSentiment) = some (1/5) := by
  constructor
  · intro conv h
    refine ⟨_, updateEmotionalSummary_of_counts_ne_nil conv h, ?_⟩
    simp only [sentimentTotals_eq]
    cases hsc : sentimentContributions conv.messages with
    | nil => simp
    | cons v t => simp
  · simp [updateEmotionalSummary, emotionCounts, sentimentTotals, convC3b,
      prPos, prNeg, bumpCount, sentimentValue, sortByCountDesc, insertDesc]
    norm_num

/-- C3 witness: the amended average-sentiment characterization applied to
the concrete scenario conversation. -/
theorem c3_average_sentiment_witness :
    ∃ s, (updateEmotionalSummary convC3b).emotionalSummary = some s ∧
      s.averageSentiment =
        (if sentimentContributions convC3b.messages = [] then 0
         else (sentimentContributions convC3b.messages).sum /
           ((sentimentContributions convC3b.messages).length : ℚ)) :=
  c3_average_sentiment.1 convC3b (by decide)

/-- A processing result whose emotion payload is sad, with neutral
sentiment. -/
def prSadEmo : ProcessingResult :=
  { transcript := "t", original_transcript := none, transcript_confidence := 1
    language := "en", language_name := none, is_south_indian_language := none
    sentiment := "neutral", sentiment_confidence := 1
    sentiment_scores := [], processing_time := 1, totalProcessingTime := none
    sentiment_method := none
    emotions := some
      { primary_emotion := "sad", emotion_scores := [], confidence := 1/2
        category := "negative", intensity := "low" } }

/-- Conversation whose messages carry the emotions happy, happy, sad. -/
def convHHS : Conversation :=
  { id := "c1", title := "t"
    messages :=
      [⟨"m1", MsgType.user, "a", 0, none, some prPos, none⟩,
       ⟨"m2", MsgType.user, "b", 1, none, some prPos, none⟩,
       ⟨"m3", MsgType.user, "c", 2, none, some prSadEmo, none⟩]
    createdAt := 0, updatedAt := 2, emotionalSummary := none }

/-- C2 witness: the dominant-emotion scenario applied to a concrete
conversation carrying happy, happy, sad. -/
theorem c2_dominant_emotion_witness :
    ∃ s, (updateEmotionalSummary convHHS).emotionalSummary = some s ∧
      s.dominantEmotion = "happy" ∧
      countOf "happy" s.emotionDistribution = 2 ∧
      countOf "sad" s.emotionDistribution = 1 ∧
      (∀ p ∈ s.emotionDistribution, p.1 = "happy" ∨ p.1 = "sad") :=
  c2_dominant_emotion.1 convHHS (by decide)

/-! Store-operation lemmas. -/

lemma getCurrentConversation_spec (st : ManagerState) (conv : Conversation)
    (h : getCurrentConversation st = some conv) :
    ∃ cid, st.currentConversationId = some cid ∧ ¬ cid = "" ∧
      st.conversations.find? (fun c => c.id = cid) = some conv ∧
      conv.id = cid := by
  cases hc : st.currentConversationId with
  | none =>
    simp only [getCurrentConversation, hc] at h
    simp at h
  | some cid =>
    simp only [getCurrentConversation, hc] at h
    by_cases he : cid = ""
    · rw [if_pos he] at h; simp at h
    · rw [if_neg he] at h
      refine ⟨cid, rfl, he, h, ?_⟩
      have := List.find?_some h
      simpa using this

lemma getCurrent_of_pointer_none (st : ManagerState)
    (h : st.currentConversationId = none) :
    getCurrentConversation st = none := by
  unfold getCurrentConversation
  rw [h]

lemma getCurrent_none_of_unset_or_missing (st : ManagerState)
    (h : st.currentConversationId = none ∨
      ∃ cid, st.currentConversationId = some cid ∧
        ∀ c ∈ st.conversations, ¬ c.id = cid) :
    getCurrentConversation st = none := by
  rcases h with h | ⟨cid, hcid, hall⟩
  · exact getCurrent_of_pointer_none st h
  · simp only [getCurrentConversation, hcid]
    by_cases he : cid = ""
    · rw [if_pos he]
    · rw [if_neg he]
      exact List.find?_eq_none.mpr (fun c hc => by simpa using hall c hc)

lemma getCurrent_saveConversations (st : ManagerState) :
    getCurrentConversation (saveConversations st) = getCurrentConversation st :=
  rfl

lemma getCurrentConversation_eq_find (st : ManagerState) (cid : String)
    (hcid : st.currentConversationId = some cid) (hne : ¬ cid = "") :
    getCurrentConversation st = st.conversations.find? (fun c => c.id = cid) := by
  simp only [getCurrentConversation, hcid]
  rw [if_neg hne]

lemma find?_replaceFirst (p : Conversation → Bool) (y x : Conversation)
    (l : List Conversation) (hf : l.find? p = some x) (hy : p y = true) :
    (replaceFirst p y l).find? p = some y := by
  induction l with
  | nil => simp at hf
  | cons c rest ih =>
    by_cases hc : p c = true
    · rw [replaceFirst, if_pos hc]
      simp [List.find?_cons, hy]
    · rw [replaceFirst, if_neg hc]
      rw [List.find?_cons_of_neg _ (by simp [hc])] at hf ⊢
      exact ih hf

lemma addMsgConv_fst_id (conv : Conversation) (input : MessageInput)
    (newId : String) (now : Int) :
    ((addMsgConv conv input newId now).1).id = conv.id := by
  simp only [addMsgConv]
  rw [updateEmotionalSummary_id]
  split <;> rfl

lemma addMsgConv_fst_messages (conv : Conversation) (input : MessageInput)
    (newId : String) (now : Int) :
    ((addMsgConv conv input newId now).1).messages =
      conv.messages ++
        [⟨newId, input.type, input.content, now, input.audioUrl,
          input.processingResult, input.isTyping⟩] := by
  simp only [addMsgConv]
  rw [updateEmotionalSummary_messages]
  split <;> rfl

lemma addMsgConv_title_of_ne_nil (conv : Conversation) (input : MessageInput)
    (newId : String) (now : Int) (h : conv.messages ≠ []) :
    ((addMsgConv conv input newId now).1).title = conv.title := by
  simp only [addMsgConv]
  rw [updateEmotionalSummary_title]
  split
  case isTrue hcond =>
    exfalso
    have h1 := hcond.1
    simp only [List.length_append, List.length_cons, List.length_nil] at h1
    have : conv.messages.length = 0 := by omega
    exact h (List.length_eq_zero.mp this)
  case isFalse => rfl

lemma addMsgConv_title_first_user (conv : Conversation) (input : MessageInput)
    (newId : String) (now : Int) (h : conv.messages = [])
    (ht : input.type = MsgType.user) :
    ((addMsgConv conv input newId now).1).title = generateTitle input.content := by
  simp only [addMsgConv]
  rw [updateEmotionalSummary_title]
  split
  case isTrue => rfl
  case isFalse hcond =>
    exact absurd ⟨by simp [h], ht⟩ hcond

lemma getCurrent_after_addMessage (st : ManagerState) (conv : Conversation)
    (input : MessageInput) (newId : String) (now : Int)
    (h : getCurrentConversation st = some conv) :
    getCurrentConversation (addMessage st input newId now).1 =
      some (addMsgConv conv input newId now).1 := by
  obtain ⟨cid, hcid, hne, hfind, hid⟩ := getCurrentConversation_spec st conv h
  simp only [addMessage, h]
  rw [getCurrent_saveConversations]
  rw [getCurrentConversation_eq_find _ cid (by simpa using hcid) hne]
  show (replaceFirst (fun c => c.id = conv.id) _ st.conversations).find?
      (fun c => c.id = cid) = _
  rw [hid]
  exact find?_replaceFirst _ _ conv st.conversations hfind
    (by simp [addMsgConv_fst_id, hid])

/-- C4: a first message of type user with content "a b c d e f g h" makes
the conversation title "a b c d e f..."; the ellipsis is appended exactly
when the content has more than 6 words; and once a conversation has any
message, no later addMessage changes the title. -/
theorem c4_title_derivation :
    (∀ (st : ManagerState) (conv : Conversation) (input : MessageInput)
        (newId : String) (now : Int),
        getCurrentConversation st = some conv →
        conv.messages = [] →
        input.type = MsgType.user →
        input.content = "a b c d e f g h" →
        ∃ conv2,
          getCurrentConversation (addMessage st input newId now).1 = some conv2 ∧
          conv2.title = "a b c d e f...")
    ∧ (∀ content : String,
        ((splitWords content).length ≤ 6 →
          generateTitle content =
            String.intercalate " " ((splitWords content).take 6)) ∧
        (6 < (splitWords content).length →
          generateTitle content =
            String.intercalate " " ((splitWords content).take 6) ++ "..."))
    ∧ (∀ (st : ManagerState) (conv : Conversation) (input : MessageInput)
        (newId : String) (now : Int),
        getCurrentConversation st = some conv →
        conv.messages ≠ [] →
        ∀ conv2,
          getCurrentConversation (addMessage st input newId now).1 = some conv2 →
          conv2.title = conv.title) := by
  refine ⟨?_, ?_, ?_⟩
  · intro st conv input newId now hcur hempty htype hcontent
    refine ⟨(addMsgConv conv input newId now).1,
      getCurrent_after_addMessage st conv input newId now hcur, ?_⟩
    rw [addMsgConv_title_first_user conv input newId now hempty htype,
      hcontent]
    decide
  · intro content
    constructor
    · intro h
      simp only [generateTitle]
      rw [if_neg (by omega)]
      simp
    · intro h
      simp only [generateTitle]
      rw [if_pos h]
  · intro st conv input newId now hcur hne conv2 hcur2
    rw [getCurrent_after_addMessage st conv input newId now hcur] at hcur2
    cases hcur2
    exact addMsgConv_title_of_ne_nil conv input newId now hne

/-- Empty conversation used by concrete store scenarios. -/
def convEmpty : Conversation :=
  { id := "c1", title := "t0", messages := [], createdAt := 0, updatedAt := 0
    emotionalSummary := none }

/-- Store state with one empty conversation selected as current. -/
def stOneEmpty : ManagerState :=
  { conversations := [convEmpty], currentConversationId := some "c1"
    storage := none }

/-- A plain user message input with an 8-word content. -/
def inputEightWords : MessageInput :=
  { type := MsgType.user, content := "a b c d e f g h", audioUrl := none
    processingResult := none, isTyping := none }

/-- C4 witness: the title derivation applied to a concrete store holding
one empty current conversation. -/
theorem c4_title_derivation_witness :
    ∃ conv2,
      getCurrentConversation (addMessage stOneEmpty inputEightWords "m1" 5).1 =
        some conv2 ∧ conv2.title = "a b c d e f..." :=
  c4_title_derivation.1 stOneEmpty convEmpty inputEightWords "m1" 5
    (by decide) rfl rfl rfl

/-- C5: with the current pointer unset, or pointing at an id no
conversation has, addMessage fails with the 'No active conversation' error
and returns the store state unchanged (conversation list and persisted
storage included). -/
theorem c5_add_without_current_fails :
    ∀ (st : ManagerState) (input : MessageInput) (newId : String) (now : Int),
      (st.currentConversationId = none ∨
        ∃ cid, st.currentConversationId = some cid ∧
          ∀ c ∈ st.conversations, ¬ c.id = cid) →
      addMessage st input newId now = (st, Except.error "No active conversation") := by
  intro st input newId now h
  have hg := getCurrent_none_of_unset_or_missing st h
  simp [addMessage, hg]

/-- C5 witness: adding to a store with no conversation selected. -/
theorem c5_add_without_current_fails_witness :
    addMessage ⟨[convEmpty], none, none⟩ inputEightWords "m1" 5 =
      (⟨[convEmpty], none, none⟩, Except.error "No active conversation") :=
  c5_add_without_current_fails ⟨[convEmpty], none, none⟩ inputEightWords "m1" 5
    (Or.inl rfl)

lemma applyOp_pointer_none (st : ManagerState) (op : StoreOp)
    (h : st.currentConversationId = none) :
    (applyOp st op).currentConversationId = none := by
  cases op with
  | add input newId now =>
    have hg := getCurrent_of_pointer_none st h
    simp [applyOp, addMessage, hg, h]
  | update messageId u now =>
    have hg := getCurrent_of_pointer_none st h
    simp [applyOp, updateMessage, hg, h]
  | delete id =>
    simp [applyOp, deleteConversation, saveConversations, h]

lemma applyOps_pointer_none (st : ManagerState) (ops : List StoreOp)
    (h : st.currentConversationId = none) :
    (applyOps st ops).currentConversationId = none := by
  induction ops generalizing st with
  | nil => exact h
  | cons op rest ih =>
    exact ih (applyOp st op) (applyOp_pointer_none st op h)

/-- C6: deleting the currently selected conversation removes it from the
list and leaves getCurrentConversation null, and it stays null under any
further addMessage/updateMessage/deleteConversation operations (only
creating or selecting a conversation sets the pointer again); moreover
getCurrentConversation is null whenever the pointer is unset or points at
an id not in the list. -/
theorem c6_delete_clears_current :
    (∀ (st : ManagerState) (id : String),
        st.currentConversationId = some id →
        (∀ c ∈ (deleteConversation st id).conversations, ¬ c.id = id) ∧
        getCurrentConversation (deleteConversation st id) = none ∧
        ∀ ops : List StoreOp,
          getCurrentConversation (applyOps (deleteConversation st id) ops) = none)
    ∧ (∀ st : ManagerState,
        (st.currentConversationId = none ∨
          ∃ cid, st.currentConversationId = some cid ∧
            ∀ c ∈ st.conversations, ¬ c.id = cid) →
        getCurrentConversation st = none) := by
  constructor
  · intro st id hcur
    have hdel : (deleteConversation st id).currentConversationId = none := by
      simp [deleteConversation, saveConversations, hcur]
    refine ⟨?_, getCurrent_of_pointer_none _ hdel,
      fun ops => getCurrent_of_pointer_none _ (applyOps_pointer_none _ ops hdel)⟩
    intro c hc
    have hc2 : c ∈ st.conversations.filter (fun c => c.id ≠ id) := by
      simpa [deleteConversation, saveConversations] using hc
    have := List.mem_filter.mp hc2
    simpa using this.2
  · exact getCurrent_none_of_unset_or_missing

/-- C6 witness: deleting the selected conversation of a concrete store. -/
theorem c6_delete_clears_current_witness :
    getCurrentConversation (deleteConversation stOneEmpty "c1") = none :=
  ((c6_delete_clears_current.1 stOneEmpty "c1" rfl).2).1

lemma updateFirstMsg_eq_none (messageId : String) (u : MessageUpdate)
    (msgs : List Message) (h : ∀ m ∈ msgs, ¬ m.id = messageId) :
    updateFirstMsg messageId u msgs = none := by
  induction msgs with
  | nil => rfl
  | cons m rest ih =>
    rw [updateFirstMsg, if_neg (h m (List.mem_cons_self m rest))]
    rw [ih (fun m hm => h m (List.mem_cons_of_mem _ hm))]
    rfl

/-- C8: updateMessage with an id that does not occur among the current
conversation's messages (in particular an id living in some other
conversation, or no current conversation at all) returns the store state
unchanged: every conversation, every message, every updatedAt and the
persisted storage are exactly as before. -/
theorem c8_update_missing_id_noop :
    ∀ (st : ManagerState) (messageId : String) (u : MessageUpdate) (now : Int),
      (∀ conv, getCurrentConversation st = some conv →
        ∀ m ∈ conv.messages, ¬ m.id = messageId) →
      updateMessage st messageId u now = st := by
  intro st messageId u now h
  cases hg : getCurrentConversation st with
  | none => simp [updateMessage, hg]
  | some conv =>
    have hnone := updateFirstMsg_eq_none messageId u conv.messages (h conv hg)
    simp [updateMessage, hg, hnone]

/-- Conversation holding one message with id "m9", used to show that an id
present in a non-current conversation is still a no-op. -/
def convOther : Conversation :=
  { id := "c2", title := "t2"
    messages := [⟨"m9", MsgType.ai, "x", 0, none, none, none⟩]
    createdAt := 0, updatedAt := 0, emotionalSummary := none }

/-- Store whose current conversation is convEmpty while convOther (which
contains message "m9") is also present. -/
def stTwoConvs : ManagerState :=
  { conversations := [convEmpty, convOther], currentConversationId := some "c1"
    storage := none }

/-- C8 witness: updating message "m9" — which exists only in the
non-current conversation — leaves the concrete store untouched. -/
theorem c8_update_missing_id_noop_witness :
    updateMessage stTwoConvs "m9"
      ⟨none, none, none, none, none, none, none⟩ 7 = stTwoConvs :=
  c8_update_missing_id_noop stTwoConvs "m9" ⟨none, none, none, none, none, none, none⟩ 7
    (by
      intro conv hconv
      have hg : getCurrentConversation stTwoConvs = some convEmpty := by decide
      rw [hg] at hconv
      cases hconv
      decide)

/-! Claim C7: when is the emotionalSummary set? -/

lemma emotionsOf_ne_nil_iff (msgs : List Message) :
    emotionsOf msgs ≠ [] ↔ ∃ m ∈ msgs, hasEmotion m = true := by
  rw [Ne, emotionsOf, List.filterMap_eq_nil_iff]
  constructor
  · intro h
    push_neg at h
    obtain ⟨m, hm, hne⟩ := h
    refine ⟨m, hm, ?_⟩
    rw [hasEmotion]
    cases he : m.processingResult.bind (fun pr => pr.emotions) with
    | none => exact absurd (by rw [he]; rfl) hne
    | some em => rfl
  · rintro ⟨m, hm, hasm⟩ hall
    have h2 := hall m hm
    rw [Option.map_eq_none'] at h2
    rw [hasEmotion, h2] at hasm
    simp at hasm

lemma addMsgConv_fst_summary_isSome (conv : Conversation)
    (input : MessageInput) (newId : String) (now : Int) :
    (((addMsgConv conv input newId now).1).emotionalSummary.isSome = true) ↔
      (emotionCounts
          (conv.messages ++
            [⟨newId, input.type, input.content, now, input.audioUrl,
              input.processingResult, input.isTyping⟩]) ≠ [] ∨
        conv.emotionalSummary.isSome = true) := by
  simp only [addMsgConv]
  rw [updateEmotionalSummary_isSome]
  split <;> simp

lemma summary_iff_step (conv : Conversation) (input : MessageInput)
    (newId : String) (now : Int)
    (h : conv.emotionalSummary.isSome = true ↔
      ∃ m ∈ conv.messages, hasEmotion m = true) :
    ((addMsgConv conv input newId now).1).emotionalSummary.isSome = true ↔
      ∃ m ∈ ((addMsgConv conv input newId now).1).messages,
        hasEmotion m = true := by
  rw [addMsgConv_fst_messages, addMsgConv_fst_summary_isSome]
  constructor
  · rintro (hc | hs)
    · rw [Ne, emotionCounts_eq_nil_iff] at hc
      exact (emotionsOf_ne_nil_iff _).mp hc
    · obtain ⟨m, hm, hasm⟩ := h.mp hs
      exact ⟨m, List.mem_append_left _ hm, hasm⟩
  · rintro ⟨m, hm, hasm⟩
    left
    rw [Ne, emotionCounts_eq_nil_iff]
    exact (emotionsOf_ne_nil_iff _).mpr ⟨m, hm, hasm⟩

/-- Folding a sequence of addMessage mutations over one conversation (the
per-conversation effect of repeated addMessage calls on the current
conversation; each tuple carries the generated id and timestamp). -/
def addMessagesFold (conv : Conversation)
    (inputs : List (MessageInput × String × Int)) : Conversation :=
  inputs.foldl (fun c t => (addMsgConv c t.1 t.2.1 t.2.2).1) conv

lemma addMessagesFold_invariant (inputs : List (MessageInput × String × Int))
    (conv : Conversation)
    (h : conv.emotionalSummary.isSome = true ↔
      ∃ m ∈ conv.messages, hasEmotion m = true) :
    (addMessagesFold conv inputs).emotionalSummary.isSome = true ↔
      ∃ m ∈ (addMessagesFold conv inputs).messages, hasEmotion m = true := by
  induction inputs generalizing conv with
  | nil => exact h
  | cons t rest ih =>
    exact ih (addMsgConv conv t.1 t.2.1 t.2.2).1
      (summary_iff_step conv t.1 t.2.1 t.2.2 h)

lemma map_replaceFirst {β : Type} (f : Conversation → β)
    (p : Conversation → Bool) (y : Conversation) (l : List Conversation)
    (x : Conversation) (hf : l.find? p = some x) (hfy : f y = f x) :
    (replaceFirst p y l).map f = l.map f := by
  induction l with
  | nil => simp at hf
  | cons c rest ih =>
    by_cases hc : p c = true
    · rw [List.find?_cons_of_pos _ hc] at hf
      cases hf
      rw [replaceFirst, if_pos hc]
      simp [hfy]
    · rw [List.find?_cons_of_neg _ (by simp [hc])] at hf
      rw [replaceFirst, if_neg hc]
      simp [ih hf]

/-- An AI message input with no analysis payload. -/
def inputPlainAI : MessageInput :=
  { type := MsgType.ai, content := "hi", audioUrl := none
    processingResult := none, isTyping := none }

/-- Store after adding one payload-free message to the empty current
conversation. -/
def stC7a : ManagerState := (addMessage stOneEmpty inputPlainAI "m1" 5).1

/-- Update that attaches an emotion-bearing processing result to an
existing message (the streaming-update flow). -/
def updAttachEmotion : MessageUpdate :=
  ⟨none, none, none, none, none, some (some prPos), none⟩

/-- Store after attaching the emotion payload through updateMessage. -/
def stC7b : ManagerState := updateMessage stC7a "m1" updAttachEmotion 6

/-- C7 counterexample: after addMessage of a payload-free message followed
by updateMessage attaching an emotion-bearing processingResult, the current
conversation has a message carrying emotion analysis while emotionalSummary
is still unset — updateMessage never recomputes the summary, so the claimed
"if and only if" fails for add/update sequences. -/
theorem c7_counterexample :
    (getCurrentConversation stC7b).map
        (fun c => (c.messages.any (fun m => hasEmotion m),
          c.emotionalSummary.isSome)) = some (true, false) := by
  decide

/-- C7 (amended): under sequences of addMessage operations alone the
equivalence holds — the summary is set exactly when some message carries
emotion analysis (in particular it stays unset when messages carry only
sentiment data); updateMessage, however, does not recompute the summary:
it leaves every conversation's emotionalSummary exactly as it was. -/
theorem c7_summary_set_iff :
    (∀ (conv0 : Conversation) (inputs : List (MessageInput × String × Int)),
        conv0.messages = [] → conv0.emotionalSummary = none →
        ((addMessagesFold conv0 inputs).emotionalSummary.isSome = true ↔
          ∃ m ∈ (addMessagesFold conv0 inputs).messages, hasEmotion m = true))
    ∧ (∀ (st : ManagerState) (messageId : String) (u : MessageUpdate)
        (now : Int),
        (updateMessage st messageId u now).conversations.map
            (fun c => c.emotionalSummary) =
          st.conversations.map (fun c => c.emotionalSummary)) := by
  constructor
  · intro conv0 inputs h1 h2
    exact addMessagesFold_invariant inputs conv0 (by rw [h1, h2]; simp)
  · intro st messageId u now
    cases hg : getCurrentConversation st with
    | none => simp [updateMessage, hg]
    | some conv =>
      cases hu : updateFirstMsg messageId u conv.messages with
      | none => simp [updateMessage, hg, hu]
      | some msgs =>
        simp only [updateMessage, hg, hu, saveConversations]
        obtain ⟨cid, hcid, hne, hfind, hid⟩ :=
          getCurrentConversation_spec st conv hg
        have hfind2 : st.conversations.find? (fun c => c.id = conv.id) =
            some conv := by
          rw [hid]; exact hfind
        exact map_replaceFirst _ _ _ st.conversations conv hfind2 rfl

/-- C7 witness: the amended equivalence applied to one concrete
emotion-bearing addMessage sequence. -/
theorem c7_summary_set_iff_witness :
    (addMessagesFold convEmpty
        [(⟨MsgType.user, "a", none, some prPos, none⟩, "m1", 5)]
      ).emotionalSummary.isSome = true ↔
      ∃ m ∈ (addMessagesFold convEmpty
          [(⟨MsgType.user, "a", none, some prPos, none⟩, "m1", 5)]).messages,
        hasEmotion m = true :=
  c7_summary_set_iff.1 convEmpty
    [(⟨MsgType.user, "a", none, some prPos, none⟩, "m1", 5)] rfl rfl

/-- C9: in production mode, when pushing a metric makes the queue length
reach batchSize (10), addMetric flushes immediately — the full queue (its
front batchSize entries, here all of it) is extracted for sending and the
queue is left empty — independent of the 30-second timer (the timer never
enters addMetric's control flow). -/
theorem c9_batch_flush :
    ∀ (st : CloudWatchState) (name : String) (value : ℚ)
      (dimensions : Option (List (String × String))) (now : Int),
      st.isProduction = true →
      st.metricsQueue.length + 1 = batchSize →
      addMetric st name value dimensions now =
        ({ st with metricsQueue := [] },
          some (st.metricsQueue ++ [⟨name, value, dimensions, some now⟩])) := by
  intro st name value dimensions now hp hlen
  have hq : (st.metricsQueue ++ [(⟨name, value, dimensions, some now⟩ :
      CloudWatchMetric)]).length = batchSize := by
    simpa using hlen
  simp only [addMetric, hp]
  rw [if_neg (by simp)]
  rw [if_pos (by simp [hq])]
  simp only [flushMetrics]
  rw [if_neg (by simp [hq, hp, batchSize])]
  rw [← hq, List.take_length, List.drop_length]

/-- A queue of nine identical metrics, one short of the batch size. -/
def nineMetricsState : CloudWatchState :=
  { metricsQueue := List.replicate 9 ⟨"PageView", 1, none, some 0⟩
    isProduction := true }

/-- C9 witness: the tenth metric triggers the immediate flush on a concrete
nine-entry production queue. -/
theorem c9_batch_flush_witness :
    addMetric nineMetricsState "PageView" 1 none 3 =
      ({ nineMetricsState with metricsQueue := [] },
        some (nineMetricsState.metricsQueue ++ [⟨"PageView", 1, none, some 3⟩])) :=
  c9_batch_flush nineMetricsState "PageView" 1 none 3 rfl (by decide)

/-! Claim C10: getEmotionalInsights counts summary-less conversations. -/

lemma addConvToInsight_date (i : EmotionalInsight) (c : Conversation) :
    (addConvToInsight i c).date = i.date := by
  cases h : c.emotionalSummary <;> simp [addConvToInsight, h]

lemma addConvToInsight_count (i : EmotionalInsight) (c : Conversation) :
    (addConvToInsight i c).conversationCount = i.conversationCount + 1 := by
  cases h : c.emotionalSummary <;> simp [addConvToInsight, h]

lemma addConvToInsight_of_none (i : EmotionalInsight) (c : Conversation)
    (h : c.emotionalSummary = none) :
    addConvToInsight i c =
      { i with conversationCount := i.conversationCount + 1 } := by
  simp [addConvToInsight, h]

lemma map_eq_self_of_fix {α : Type} (f : α → α) (l : List α)
    (h : ∀ a ∈ l, f a = a) : l.map f = l := by
  induction l with
  | nil => rfl
  | cons a rest ih =>
    rw [List.map_cons, h a (List.mem_cons_self a rest),
      ih (fun a ha => h a (List.mem_cons_of_mem _ ha))]

lemma insertConv_of_not_mem (acc : List EmotionalInsight) (c : Conversation)
    (h : ∀ i ∈ acc, i.date ≠ dayKey c.updatedAt) :
    insertConv acc c =
      acc ++ [addConvToInsight (freshInsight (dayKey c.updatedAt)) c] := by
  induction acc with
  | nil => rfl
  | cons i rest ih =>
    rw [insertConv, if_neg (h i (List.mem_cons_self i rest))]
    rw [ih (fun j hj => h j (List.mem_cons_of_mem _ hj))]
    rfl

lemma insertConv_of_mem (acc : List EmotionalInsight) (c : Conversation)
    (hpw : acc.Pairwise (fun a b => a.date ≠ b.date))
    (hmem : ∃ i ∈ acc, i.date = dayKey c.updatedAt) :
    insertConv acc c =
      acc.map (fun i =>
        if i.date = dayKey c.updatedAt then addConvToInsight i c else i) := by
  induction acc with
  | nil => simp at hmem
  | cons i rest ih =>
    rw [List.pairwise_cons] at hpw
    by_cases hd : i.date = dayKey c.updatedAt
    · rw [insertConv, if_pos hd, List.map_cons, if_pos hd]
      have hrest : rest.map (fun j =>
          if j.date = dayKey c.updatedAt then addConvToInsight j c else j) =
          rest := by
        refine map_eq_self_of_fix _ rest (fun j hj => ?_)
        rw [if_neg]
        intro hjd
        exact hpw.1 j hj (hd.trans hjd.symm)
      rw [hrest]
    · rw [insertConv, if_neg hd, List.map_cons, if_neg hd]
      have hmem2 : ∃ j ∈ rest, j.date = dayKey c.updatedAt := by
        rcases hmem with ⟨j, hj, hjd⟩
        rcases List.mem_cons.mp hj with rfl | hj2
        · exact absurd hjd hd
        · exact ⟨j, hj2, hjd⟩
      rw [ih hpw.2 hmem2]

lemma convsOfDay_append_singleton (d : Int) (l : List Conversation)
    (c : Conversation) :
    convsOfDay d (l ++ [c]) =
      convsOfDay d l ++ (if dayKey c.updatedAt = d then [c] else []) := by
  rw [convsOfDay, List.filter_append]
  by_cases h : dayKey c.updatedAt = d <;> simp [convsOfDay, h]

/-- Loop invariant of getEmotionalInsights' grouping fold, relative to the
conversations processed so far: entry dates are distinct; each entry counts
exactly its day's processed conversations; a day all of whose processed
conversations lack a summary has zero sentiment, an empty breakdown and an
empty dominant label; and every processed day has an entry. -/
def InsAcc (processed : List Conversation) (acc : List EmotionalInsight) :
    Prop :=
  acc.Pairwise (fun a b => a.date ≠ b.date) ∧
  (∀ i ∈ acc, i.conversationCount = (convsOfDay i.date processed).length) ∧
  (∀ i ∈ acc,
    (∀ c ∈ convsOfDay i.date processed, c.emotionalSummary = none) →
      i.sentimentScore = 0 ∧ i.emotionBreakdown = [] ∧
        i.dominantEmotion = "") ∧
  (∀ d, convsOfDay d processed ≠ [] → ∃ i ∈ acc, i.date = d)

lemma insAcc_step (processed : List Conversation)
    (acc : List EmotionalInsight) (c : Conversation)
    (h : InsAcc processed acc) :
    InsAcc (processed ++ [c]) (insertConv acc c) := by
  obtain ⟨hpw, hcount, hzero, hocc⟩ := h
  by_cases hmem : ∃ i ∈ acc, i.date = dayKey c.updatedAt
  · rw [insertConv_of_mem acc c hpw hmem]
    have hdate : ∀ i : EmotionalInsight,
        ((fun i => if i.date = dayKey c.updatedAt then addConvToInsight i c
          else i) i).date = i.date := by
      intro i
      by_cases hd : i.date = dayKey c.updatedAt <;>
        simp [hd, addConvToInsight_date]
    refine ⟨?_, ?_, ?_, ?_⟩
    · exact hpw.map _ (fun a b hab => by rw [hdate a, hdate b]; exact hab)
    · intro i2 hi2
      obtain ⟨i, hi, rfl⟩ := List.mem_map.mp hi2
      rw [hdate i]
      by_cases hd : i.date = dayKey c.updatedAt
      · rw [if_pos hd, addConvToInsight_count, hcount i hi,
          convsOfDay_append_singleton, if_pos hd.symm]
        simp
      · rw [if_neg hd, hcount i hi, convsOfDay_append_singleton,
          if_neg (fun hh => hd hh.symm)]
        simp
    · intro i2 hi2 hall
      obtain ⟨i, hi, rfl⟩ := List.mem_map.mp hi2
      rw [hdate i] at hall
      by_cases hd : i.date = dayKey c.updatedAt
      · rw [convsOfDay_append_singleton, if_pos hd.symm] at hall
        have hcnone : c.emotionalSummary = none :=
          hall c (List.mem_append_right _ (List.mem_cons_self c []))
        have hold := hzero i hi
          (fun c2 hc2 => hall c2 (List.mem_append_left _ hc2))
        rw [if_pos hd, addConvToInsight_of_none i c hcnone]
        exact hold
      · rw [convsOfDay_append_singleton,
          if_neg (fun hh => hd hh.symm)] at hall
        simp only [List.append_nil] at hall
        rw [if_neg hd]
        exact hzero i hi hall
    · intro d hne
      rw [convsOfDay_append_singleton] at hne
      by_cases hd : dayKey c.updatedAt = d
      · obtain ⟨i, hi, hidate⟩ := hmem
        refine ⟨(fun i => if i.date = dayKey c.updatedAt
            then addConvToInsight i c else i) i,
          List.mem_map_of_mem _ hi, ?_⟩
        rw [hdate i, hidate, hd]
      · rw [if_neg hd, List.append_nil] at hne
        obtain ⟨i, hi, hidate⟩ := hocc d hne
        exact ⟨_, List.mem_map_of_mem _ hi, by rw [hdate i]; exact hidate⟩
  · push_neg at hmem
    rw [insertConv_of_not_mem acc c hmem]
    have hold_empty : convsOfDay (dayKey c.updatedAt) processed = [] := by
      by_contra hne
      obtain ⟨i, hi, hidate⟩ := hocc _ hne
      exact hmem i hi hidate
    have hfdate : (addConvToInsight (freshInsight (dayKey c.updatedAt)) c).date
        = dayKey c.updatedAt := by
      rw [addConvToInsight_date]; rfl
    refine ⟨?_, ?_, ?_, ?_⟩
    · rw [List.pairwise_append]
      refine ⟨hpw, List.pairwise_singleton _ _, ?_⟩
      intro a ha b hb
      have hb2 : b = addConvToInsight (freshInsight (dayKey c.updatedAt)) c := by
        simpa using hb
      rw [hb2, hfdate]
      exact hmem a ha
    · intro i2 hi2
      rcases List.mem_append.mp hi2 with hi | hi
      · rw [hcount i2 hi, convsOfDay_append_singleton,
          if_neg (fun hh => hmem i2 hi hh.symm), List.append_nil]
      · have hi2eq : i2 = addConvToInsight (freshInsight (dayKey c.updatedAt)) c := by
          simpa using hi
        subst hi2eq
        rw [hfdate, addConvToInsight_count, convsOfDay_append_singleton,
          if_pos rfl, hold_empty]
        rfl
    · intro i2 hi2 hall
      rcases List.mem_append.mp hi2 with hi | hi
      · rw [convsOfDay_append_singleton,
          if_neg (fun hh => hmem i2 hi hh.symm), List.append_nil] at hall
        exact hzero i2 hi hall
      · have hi2eq : i2 = addConvToInsight (freshInsight (dayKey c.updatedAt)) c := by
          simpa using hi
        subst hi2eq
        rw [hfdate, convsOfDay_append_singleton, if_pos rfl, hold_empty] at hall
        have hcnone : c.emotionalSummary = none :=
          hall c (by simp)
        rw [addConvToInsight_of_none _ c hcnone]
        exact ⟨rfl, rfl, rfl⟩
    · intro d hne
      rw [convsOfDay_append_singleton] at hne
      by_cases hd : dayKey c.updatedAt = d
      · exact ⟨addConvToInsight (freshInsight (dayKey c.updatedAt)) c,
          List.mem_append_right _ (by simp), by rw [hfdate]; exact hd⟩
      · rw [if_neg hd, List.append_nil] at hne
        obtain ⟨i, hi, hidate⟩ := hocc d hne
        exact ⟨i, List.mem_append_left _ hi, hidate⟩

lemma insAcc_foldl (convs : List Conversation)
    (processed : List Conversation) (acc : List EmotionalInsight)
    (h : InsAcc processed acc) :
    InsAcc (processed ++ convs) (convs.foldl insertConv acc) := by
  induction convs generalizing processed acc with
  | nil => simpa using h
  | cons c rest ih =>
    have h2 := ih (processed ++ [c]) (insertConv acc c)
      (insAcc_step processed acc c h)
    simpa [List.append_assoc] using h2

lemma insAcc_nil : InsAcc [] [] := by
  refine ⟨List.Pairwise.nil, by simp, by simp, ?_⟩
  intro d h
  simp [convsOfDay] at h

lemma finalizeInsight_date (i : EmotionalInsight) :
    (finalizeInsight i).date = i.date := by
  by_cases h : 0 < i.conversationCount
  · simp only [finalizeInsight, if_pos h]
    cases hs : sortByCountDesc i.emotionBreakdown with
    | nil => rfl
    | cons p t => cases p; rfl
  · simp [finalizeInsight, h]

lemma finalizeInsight_count (i : EmotionalInsight) :
    (finalizeInsight i).conversationCount = i.conversationCount := by
  by_cases h : 0 < i.conversationCount
  · simp only [finalizeInsight, if_pos h]
    cases hs : sortByCountDesc i.emotionBreakdown with
    | nil => rfl
    | cons p t => cases p; rfl
  · simp [finalizeInsight, h]

lemma finalizeInsight_of_zero (i : EmotionalInsight)
    (h1 : 0 < i.conversationCount) (h2 : i.sentimentScore = 0)
    (h3 : i.emotionBreakdown = []) : finalizeInsight i = i := by
  simp only [finalizeInsight, if_pos h1, h3]
  rw [show sortByCountDesc [] = [] from rfl]
  cases i with
  | mk date dominantEmotion sentimentScore conversationCount emotionBreakdown =>
    simp at h2 h3
    simp [h2, h3]

lemma mem_insertAscByDate (y x : EmotionalInsight)
    (l : List EmotionalInsight) :
    x ∈ insertAscByDate y l ↔ x = y ∨ x ∈ l := by
  induction l with
  | nil => simp [insertAscByDate]
  | cons q rest ih =>
    by_cases h : q.date ≤ y.date <;> simp [insertAscByDate, h, ih] <;> tauto

lemma mem_sortInsightsByDate (l : List EmotionalInsight)
    (x : EmotionalInsight) :
    x ∈ sortInsightsByDate l ↔ x ∈ l := by
  rw [sortInsightsByDate]
  have h : ∀ acc, x ∈ l.foldl (fun acc i => insertAscByDate i acc) acc ↔
      x ∈ acc ∨ x ∈ l := by
    induction l with
    | nil => simp
    | cons i rest ih =>
      intro acc
      simp only [List.foldl_cons, ih, mem_insertAscByDate, List.mem_cons]
      tauto
  simp [h []]

/-- C10: every in-window conversation is counted toward its day's
conversationCount whether or not it has an emotionalSummary; consequently a
day all of whose in-window conversations lack a summary yields an insight
with a positive conversationCount, empty dominantEmotion, sentimentScore 0
and an empty emotionBreakdown. -/
theorem c10_insights_count_without_summary :
    ∀ (st : ManagerState) (now days : Int),
      (∀ i ∈ getEmotionalInsights st now days,
        i.conversationCount =
          (convsOfDay i.date (inWindowConvs st now days)).length)
      ∧ (∀ d : Int,
          convsOfDay d (inWindowConvs st now days) ≠ [] →
          (∀ c ∈ convsOfDay d (inWindowConvs st now days),
            c.emotionalSummary = none) →
          ∃ i ∈ getEmotionalInsights st now days,
            i.date = d ∧
            i.conversationCount =
              (convsOfDay d (inWindowConvs st now days)).length ∧
            0 < i.conversationCount ∧
            i.dominantEmotion = "" ∧ i.sentimentScore = 0 ∧
            i.emotionBreakdown = []) := by
  intro st now days
  have hfold := insAcc_foldl (inWindowConvs st now days) [] [] insAcc_nil
  rw [List.nil_append] at hfold
  obtain ⟨hpw, hcount, hzero, hocc⟩ := hfold
  constructor
  · intro i hi
    rw [getEmotionalInsights] at hi
    have hi2 := (mem_sortInsightsByDate _ i).mp hi
    obtain ⟨j, hj, rfl⟩ := List.mem_map.mp hi2
    rw [finalizeInsight_date, finalizeInsight_count]
    exact hcount j hj
  · intro d hne hall
    obtain ⟨j, hj, hjd⟩ := hocc d hne
    have hc := hcount j hj
    have hz := hzero j hj (by rw [hjd]; exact hall)
    have hpos : 0 < j.conversationCount := by
      rw [hc, hjd]
      exact List.length_pos.mpr hne
    have hfin : finalizeInsight j = j :=
      finalizeInsight_of_zero j hpos hz.1 hz.2.1
    refine ⟨finalizeInsight j, ?_, ?_⟩
    · rw [getEmotionalInsights]
      exact (mem_sortInsightsByDate _ _).mpr
        (List.mem_map_of_mem finalizeInsight hj)
    · rw [hfin]
      exact ⟨hjd, by rw [hc, hjd], hpos, hz.2.2, hz.1, hz.2.1⟩

/-- Store with a single summary-less conversation updated at instant 5. -/
def stOneNoSummary : ManagerState :=
  { conversations :=
      [{ id := "c1", title := "t", messages := [], createdAt := 0
         updatedAt := 5, emotionalSummary := none }]
    currentConversationId := none, storage := none }

/-- C10 witness: the day-zero insight for a store whose only in-window
conversation has no summary. -/
theorem c10_insights_count_without_summary_witness :
    ∃ i ∈ getEmotionalInsights stOneNoSummary msPerDay 7,
      i.date = 0 ∧
      i.conversationCount =
        (convsOfDay 0 (inWindowConvs stOneNoSummary msPerDay 7)).length ∧
      0 < i.conversationCount ∧
      i.dominantEmotion = "" ∧ i.sentimentScore = 0 ∧
      i.emotionBreakdown = [] :=
  (c10_insights_count_without_summary stOneNoSummary msPerDay 7).2 0
    (by decide) (by decide)

end VoiceInsight
